import Mathlib

/-!
Shallow embedding of `pic2term` (src/main.rs): the geometry resolver
`determine_size`, the error-diffusion ditherer `dither` with its fixed
propagation kernel, the 256-entry `ANSI_COLORS` palette, and the
half-block cell renderer from `main`.

Machine-integer conventions: `u8`/`u16`/`u32` values are `Nat` with
explicit `% 2^w` at the operations whose release-mode wraparound is
observable (`desired_h * 2`, `h * 2`, and the `x - 2`/`x - 1` neighbor
coordinates inside `dither`).  `i16`/`isize` arithmetic is `Int` (those
intermediate values never leave the representable range, so no reduction
is needed).  `f32` arithmetic in `determine_size` is modelled by exact
rational arithmetic, and the `as u16` float-to-int cast by truncation
toward zero saturating to `[0, 65535]` (rustc's saturating cast).
-/

/-- An RGB pixel: three 8-bit channels, modelled as naturals in `[0,255]`. -/
abbrev Pix := ℕ × ℕ × ℕ

/-- Sum of squared per-channel differences, the `min_by_key` key in `dither`
(Rust computes it in `isize`; the value is at most `3·255²`, exact). -/
def sqDist (p c : Pix) : ℤ :=
  ((p.1 : ℤ) - (c.1 : ℤ)) * ((p.1 : ℤ) - (c.1 : ℤ)) +
    ((p.2.1 : ℤ) - (c.2.1 : ℤ)) * ((p.2.1 : ℤ) - (c.2.1 : ℤ)) +
    ((p.2.2 : ℤ) - (c.2.2 : ℤ)) * ((p.2.2 : ℤ) - (c.2.2 : ℤ))

/-- The fold underlying `colors.iter().enumerate().min_by_key(...)`:
`i` is the index of the head of `cs` in the full palette, `best` the
current minimum.  Rust's `min_by_key` keeps the earlier element on ties
(`if key(new) < key(best) { new } else { best }`). -/
def nearestAux (p : Pix) : List Pix → ℕ → ℕ × Pix → ℕ × Pix
  | [], _, best => best
  | c :: cs, i, best =>
      nearestAux p cs (i + 1) (if sqDist p c < sqDist p best.2 then (i, c) else best)

/-- `colors.iter().enumerate().min_by_key(squared distance to p).unwrap()`:
first index attaining the minimal squared distance, paired with its color.
(The Rust `unwrap` panics on an empty palette; we return `(0, p)` there and
only state theorems for nonempty palettes.) -/
def nearest (colors : List Pix) (p : Pix) : ℕ × Pix :=
  match colors with
  | [] => (0, p)
  | c :: cs => nearestAux p cs 1 (0, c)

/-- `u8::value_from(n).unwrap_or_saturate()`: saturating conversion of the
`i16` update result to `u8`. -/
def clampU8 (n : ℤ) : ℕ := (min (max n 0) 255).toNat

/-- One channel update of `pix_add!`:
`u8::value_from(*channel as i16 + *offset * numerator / denominator).unwrap_or_saturate()`
with Rust's truncating signed division. -/
def chanAdd (c : ℕ) (off num den : ℤ) : ℕ :=
  clampU8 ((c : ℤ) + Int.tdiv (off * num) den)

/-- Write the updated channel value back into the flat buffer. -/
def updChan (raw : List ℕ) (i : ℕ) (off num den : ℤ) : List ℕ :=
  raw.set i (chanAdd (raw.getD i 0) off num den)

/-- `2^32`, the modulus of release-mode `u32` arithmetic. -/
def U32 : ℕ := 4294967296

/-- The body of the `pix_add!` macro: guarded by `$x > 0 && $x < width`
and `$y < height` (note the strict `> 0`), it updates the three channels
of the neighbor at `(x', y')` in sequence. -/
def pixAdd (raw : List ℕ) (w h x' y' : ℕ) (diff : ℤ × ℤ × ℤ) (num den : ℤ) : List ℕ :=
  if 0 < x' ∧ x' < w ∧ y' < h then
    let idx := 3 * (x' + y' * w)
    updChan (updChan (updChan raw idx diff.1 num den) (idx + 1) diff.2.1 num den)
      (idx + 2) diff.2.2 num den
  else raw

/-- The neighbor x-coordinate as the Rust release build computes it:
`x - 2`, `x - 1`, `x`, `x + 1`, `x + 2` in wrapping `u32` arithmetic. -/
def wrapX (x : ℕ) (dx : ℤ) : ℕ := (((x : ℤ) + dx).emod (U32 : ℤ)).toNat

/-- The twelve `pix_add!` invocations of `dither`, in source order:
`(dx, dy, numerator)` with common denominator 48. -/
def kernel : List (ℤ × ℕ × ℤ) :=
  [(1, 0, 7), (2, 0, 5),
   (-2, 1, 3), (-1, 1, 5), (0, 1, 7), (1, 1, 5), (2, 1, 3),
   (-2, 2, 1), (-1, 2, 3), (0, 2, 5), (1, 2, 3), (2, 2, 1)]

/-- The error-propagation phase for one pixel: the twelve `pix_add!`
invocations applied in source order. -/
def diffuse (raw : List ℕ) (w h x y : ℕ) (diff : ℤ × ℤ × ℤ) : List ℕ :=
  kernel.foldl
    (fun rw t => pixAdd rw w h (wrapX x t.1) ((y + t.2.1) % U32) diff t.2.2 48) raw

/-- Read one channel of the flat buffer (indices produced by `dither` are
in range whenever the buffer has its stated `3·w·h` length). -/
def readChan (raw : List ℕ) (i : ℕ) : ℕ := raw.getD i 0

/-- `cur_pixel`: the three channels at `cur_idx = 3 * (x + y * width)` of the
current (possibly already error-adjusted) buffer. -/
def curPix (raw : List ℕ) (w x y : ℕ) : Pix :=
  (readChan raw (3 * (x + y * w)), readChan raw (3 * (x + y * w) + 1),
    readChan raw (3 * (x + y * w) + 2))

/-- One iteration of `dither`'s pixel loop on state `(res, raw)`:
read the (possibly error-adjusted) pixel, pick the nearest palette entry,
record its index, and diffuse the residual. -/
def ditherStep (colors : List Pix) (w h : ℕ) (st : List ℕ × List ℕ) (xy : ℕ × ℕ) :
    List ℕ × List ℕ :=
  let p := curPix st.2 w xy.1 xy.2
  let r := nearest colors p
  let diff : ℤ × ℤ × ℤ :=
    ((p.1 : ℤ) - (r.2.1 : ℤ), (p.2.1 : ℤ) - (r.2.2.1 : ℤ), (p.2.2 : ℤ) - (r.2.2.2 : ℤ))
  (st.1 ++ [r.1], diffuse st.2 w h xy.1 xy.2 diff)

/-- The pixels of row `y`, left to right: the inner `for x in 0..width` loop. -/
def rowPositions (w y : ℕ) : List (ℕ × ℕ) := (List.range w).map fun x => (x, y)

/-- Raster order: the nested `for y in 0..height { for x in 0..width }` loops. -/
def positions (w : ℕ) : ℕ → List (ℕ × ℕ)
  | 0 => []
  | h + 1 => positions w h ++ rowPositions w h

/-- `dither(img, colors)`: fold the per-pixel step over raster order.
Returns the index grid together with the final buffer (the Rust code drops
the buffer; we keep it so that error propagation is observable). -/
def dither (colors : List Pix) (w h : ℕ) (raw : List ℕ) : List ℕ × List ℕ :=
  (positions w h).foldl (ditherStep colors w h) ([], raw)

/-- The flat `3·n`-channel buffer of a uniform image of `n` pixels of color `p`. -/
def uniformRaw (n : ℕ) (p : Pix) : List ℕ :=
  match n with
  | 0 => []
  | n + 1 => p.1 :: p.2.1 :: p.2.2 :: uniformRaw n p

/-- The `as u16` cast of an `f32` value, as rustc compiles it: truncate
toward zero and saturate to `[0, 65535]` (the argument is modelled as an
exact rational). -/
def f32ToU16 (q : ℚ) : ℕ := (min (max ⌊q⌋ 0) 65535).toNat

/-- `determine_size(aspect, desired_w, desired_h)` with the `termsize::get()`
result passed explicitly as `term = some (cols, rows)` or `none`.
`u16` multiplications wrap modulo `2^16`; `f32` arithmetic is exact
rational arithmetic with saturating truncation at the casts. -/
def determine_size (aspect : ℚ) (desired_w desired_h : Option ℕ)
    (term : Option (ℕ × ℕ)) : Option (ℕ × ℕ) :=
  let dh := desired_h.map fun n => n * 2 % 65536
  match desired_w with
  | some w =>
    match dh with
    | some h => some (w, h)
    | none => some (w, f32ToU16 ((w : ℚ) / aspect))
  | none =>
    match dh with
    | some h => some (f32ToU16 ((h : ℚ) * aspect), h)
    | none =>
      match term with
      | some wh =>
        let w := wh.1
        let h := wh.2 * 2 % 65536
        if w < h then
          let rescaled_h := f32ToU16 ((w : ℚ) / aspect)
          if h < rescaled_h then
            some (f32ToU16 ((w : ℚ) * ((h : ℚ) / (rescaled_h : ℚ))), h)
          else
            some (w, rescaled_h)
        else
          let rescaled_w := f32ToU16 ((h : ℚ) * aspect)
          if w < rescaled_w then
            some (w, f32ToU16 ((h : ℚ) * ((w : ℚ) / (rescaled_w : ℚ))))
          else
            some (rescaled_w, h)
      | none => none

/-- One styled output cell: foreground palette index, optional background
palette index, and the glyph printed. -/
structure TerminalCell where
  fg : ℕ
  bg : Option ℕ
  glyph : Char
deriving DecidableEq

/-- `'\u{2584}'`, the lower-half-block glyph used for full row pairs. -/
def lowerHalfChar : Char := '▄'

/-- `'\u{2580}'`, the upper-half-block glyph used for a trailing odd row. -/
def upperHalfChar : Char := '▀'

/-- A line built from a full row pair:
`Colour::Fixed(lower[idx]).on(Colour::Fixed(upper[idx])).paint("\u{2584}")`
for `idx` in `0..w`. -/
def pairLine (w : ℕ) (upper lower : List ℕ) : List TerminalCell :=
  (List.range w).map fun i => ⟨lower.getD i 0, some (upper.getD i 0), lowerHalfChar⟩

/-- A line built from a lone trailing row:
`Colour::Fixed(upper[idx]).paint("\u{2580}")` for `idx` in `0..w`. -/
def soloLine (w : ℕ) (upper : List ℕ) : List TerminalCell :=
  (List.range w).map fun i => ⟨upper.getD i 0, none, upperHalfChar⟩

/-- `indices.chunks(w)` specialised to a list of known row count `h`
(in `main`, the index grid has length exactly `w * h`). -/
def chunksOf (w : ℕ) : ℕ → List ℕ → List (List ℕ)
  | 0, _ => []
  | n + 1, l => l.take w :: chunksOf w n (l.drop w)

/-- `rows.chunks_lazy(2)` consumption in `main`: each pair of consecutive
rows becomes one line; a lone trailing row becomes a foreground-only line. -/
def renderRows (w : ℕ) : List (List ℕ) → List (List TerminalCell)
  | [] => []
  | [upper] => [soloLine w upper]
  | upper :: lower :: rest => pairLine w upper lower :: renderRows w rest

/-- The rendering loop of `main`: chunk the index grid into `h` rows of
width `w` and emit one line per row pair, top to bottom. -/
def render (indices : List ℕ) (w h : ℕ) : List (List TerminalCell) :=
  renderRows w (chunksOf w h indices)
def ANSI_COLORS : List Pix := [
  (0x00, 0x00, 0x00), (0x80, 0x00, 0x00), (0x00, 0x80, 0x00), (0x80, 0x80, 0x00),
  (0x00, 0x00, 0x80), (0x80, 0x00, 0x80), (0x00, 0x80, 0x80), (0xc0, 0xc0, 0xc0),
  (0x80, 0x80, 0x80), (0xff, 0x00, 0x00), (0x00, 0xff, 0x00), (0xff, 0xff, 0x00),
  (0x00, 0x00, 0xff), (0xff, 0x00, 0xff), (0x00, 0xff, 0xff), (0xff, 0xff, 0xff),
  (0x00, 0x00, 0x00), (0x00, 0x00, 0x5f), (0x00, 0x00, 0x87), (0x00, 0x00, 0xaf),
  (0x00, 0x00, 0xd7), (0x00, 0x00, 0xff), (0x00, 0x5f, 0x00), (0x00, 0x5f, 0x5f),
  (0x00, 0x5f, 0x87), (0x00, 0x5f, 0xaf), (0x00, 0x5f, 0xd7), (0x00, 0x5f, 0xff),
  (0x00, 0x87, 0x00), (0x00, 0x87, 0x5f), (0x00, 0x87, 0x87), (0x00, 0x87, 0xaf),
  (0x00, 0x87, 0xd7), (0x00, 0x87, 0xff), (0x00, 0xaf, 0x00), (0x00, 0xaf, 0x5f),
  (0x00, 0xaf, 0x87), (0x00, 0xaf, 0xaf), (0x00, 0xaf, 0xd7), (0x00, 0xaf, 0xff),
  (0x00, 0xd7, 0x00), (0x00, 0xd7, 0x5f), (0x00, 0xd7, 0x87), (0x00, 0xd7, 0xaf),
  (0x00, 0xd7, 0xd7), (0x00, 0xd7, 0xff), (0x00, 0xff, 0x00), (0x00, 0xff, 0x5f),
  (0x00, 0xff, 0x87), (0x00, 0xff, 0xaf), (0x00, 0xff, 0xd7), (0x00, 0xff, 0xff),
  (0x5f, 0x00, 0x00), (0x5f, 0x00, 0x5f), (0x5f, 0x00, 0x87), (0x5f, 0x00, 0xaf),
  (0x5f, 0x00, 0xd7), (0x5f, 0x00, 0xff), (0x5f, 0x5f, 0x00), (0x5f, 0x5f, 0x5f),
  (0x5f, 0x5f, 0x87), (0x5f, 0x5f, 0xaf), (0x5f, 0x5f, 0xd7), (0x5f, 0x5f, 0xff),
  (0x5f, 0x87, 0x00), (0x5f, 0x87, 0x5f), (0x5f, 0x87, 0x87), (0x5f, 0x87, 0xaf),
  (0x5f, 0x87, 0xd7), (0x5f, 0x87, 0xff), (0x5f, 0xaf, 0x00), (0x5f, 0xaf, 0x5f),
  (0x5f, 0xaf, 0x87), (0x5f, 0xaf, 0xaf), (0x5f, 0xaf, 0xd7), (0x5f, 0xaf, 0xff),
  (0x5f, 0xd7, 0x00), (0x5f, 0xd7, 0x5f), (0x5f, 0xd7, 0x87), (0x5f, 0xd7, 0xaf),
  (0x5f, 0xd7, 0xd7), (0x5f, 0xd7, 0xff), (0x5f, 0xff, 0x00), (0x5f, 0xff, 0x5f),
  (0x5f, 0xff, 0x87), (0x5f, 0xff, 0xaf), (0x5f, 0xff, 0xd7), (0x5f, 0xff, 0xff),
  (0x87, 0x00, 0x00), (0x87, 0x00, 0x5f), (0x87, 0x00, 0x87), (0x87, 0x00, 0xaf),
  (0x87, 0x00, 0xd7), (0x87, 0x00, 0xff), (0x87, 0x5f, 0x00), (0x87, 0x5f, 0x5f),
  (0x87, 0x5f, 0x87), (0x87, 0x5f, 0xaf), (0x87, 0x5f, 0xd7), (0x87, 0x5f, 0xff),
  (0x87, 0x87, 0x00), (0x87, 0x87, 0x5f), (0x87, 0x87, 0x87), (0x87, 0x87, 0xaf),
  (0x87, 0x87, 0xd7), (0x87, 0x87, 0xff), (0x87, 0xaf, 0x00), (0x87, 0xaf, 0x5f),
  (0x87, 0xaf, 0x87), (0x87, 0xaf, 0xaf), (0x87, 0xaf, 0xd7), (0x87, 0xaf, 0xff),
  (0x87, 0xd7, 0x00), (0x87, 0xd7, 0x5f), (0x87, 0xd7, 0x87), (0x87, 0xd7, 0xaf),
  (0x87, 0xd7, 0xd7), (0x87, 0xd7, 0xff), (0x87, 0xff, 0x00), (0x87, 0xff, 0x5f),
  (0x87, 0xff, 0x87), (0x87, 0xff, 0xaf), (0x87, 0xff, 0xd7), (0x87, 0xff, 0xff),
  (0xaf, 0x00, 0x00), (0xaf, 0x00, 0x5f), (0xaf, 0x00, 0x87), (0xaf, 0x00, 0xaf),
  (0xaf, 0x00, 0xd7), (0xaf, 0x00, 0xff), (0xaf, 0x5f, 0x00), (0xaf, 0x5f, 0x5f),
  (0xaf, 0x5f, 0x87), (0xaf, 0x5f, 0xaf), (0xaf, 0x5f, 0xd7), (0xaf, 0x5f, 0xff),
  (0xaf, 0x87, 0x00), (0xaf, 0x87, 0x5f), (0xaf, 0x87, 0x87), (0xaf, 0x87, 0xaf),
  (0xaf, 0x87, 0xd7), (0xaf, 0x87, 0xff), (0xaf, 0xaf, 0x00), (0xaf, 0xaf, 0x5f),
  (0xaf, 0xaf, 0x87), (0xaf, 0xaf, 0xaf), (0xaf, 0xaf, 0xd7), (0xaf, 0xaf, 0xff),
  (0xaf, 0xd7, 0x00), (0xaf, 0xd7, 0x5f), (0xaf, 0xd7, 0x87), (0xaf, 0xd7, 0xaf),
  (0xaf, 0xd7, 0xd7), (0xaf, 0xd7, 0xff), (0xaf, 0xff, 0x00), (0xaf, 0xff, 0x5f),
  (0xaf, 0xff, 0x87), (0xaf, 0xff, 0xaf), (0xaf, 0xff, 0xd7), (0xaf, 0xff, 0xff),
  (0xd7, 0x00, 0x00), (0xd7, 0x00, 0x5f), (0xd7, 0x00, 0x87), (0xd7, 0x00, 0xaf),
  (0xd7, 0x00, 0xd7), (0xd7, 0x00, 0xff), (0xd7, 0x5f, 0x00), (0xd7, 0x5f, 0x5f),
  (0xd7, 0x5f, 0x87), (0xd7, 0x5f, 0xaf), (0xd7, 0x5f, 0xd7), (0xd7, 0x5f, 0xff),
  (0xd7, 0x87, 0x00), (0xd7, 0x87, 0x5f), (0xd7, 0x87, 0x87), (0xd7, 0x87, 0xaf),
  (0xd7, 0x87, 0xd7), (0xd7, 0x87, 0xff), (0xd7, 0xaf, 0x00), (0xd7, 0xaf, 0x5f),
  (0xd7, 0xaf, 0x87), (0xd7, 0xaf, 0xaf), (0xd7, 0xaf, 0xd7), (0xd7, 0xaf, 0xff),
  (0xd7, 0xd7, 0x00), (0xd7, 0xd7, 0x5f), (0xd7, 0xd7, 0x87), (0xd7, 0xd7, 0xaf),
  (0xd7, 0xd7, 0xd7), (0xd7, 0xd7, 0xff), (0xd7, 0xff, 0x00), (0xd7, 0xff, 0x5f),
  (0xd7, 0xff, 0x87), (0xd7, 0xff, 0xaf), (0xd7, 0xff, 0xd7), (0xd7, 0xff, 0xff),
  (0xff, 0x00, 0x00), (0xff, 0x00, 0x5f), (0xff, 0x00, 0x87), (0xff, 0x00, 0xaf),
  (0xff, 0x00, 0xd7), (0xff, 0x00, 0xff), (0xff, 0x5f, 0x00), (0xff, 0x5f, 0x5f),
  (0xff, 0x5f, 0x87), (0xff, 0x5f, 0xaf), (0xff, 0x5f, 0xd7), (0xff, 0x5f, 0xff),
  (0xff, 0x87, 0x00), (0xff, 0x87, 0x5f), (0xff, 0x87, 0x87), (0xff, 0x87, 0xaf),
  (0xff, 0x87, 0xd7), (0xff, 0x87, 0xff), (0xff, 0xaf, 0x00), (0xff, 0xaf, 0x5f),
  (0xff, 0xaf, 0x87), (0xff, 0xaf, 0xaf), (0xff, 0xaf, 0xd7), (0xff, 0xaf, 0xff),
  (0xff, 0xd7, 0x00), (0xff, 0xd7, 0x5f), (0xff, 0xd7, 0x87), (0xff, 0xd7, 0xaf),
  (0xff, 0xd7, 0xd7), (0xff, 0xd7, 0xff), (0xff, 0xff, 0x00), (0xff, 0xff, 0x5f),
  (0xff, 0xff, 0x87), (0xff, 0xff, 0xaf), (0xff, 0xff, 0xd7), (0xff, 0xff, 0xff),
  (0x08, 0x08, 0x08), (0x12, 0x12, 0x12), (0x1c, 0x1c, 0x1c), (0x26, 0x26, 0x26),
  (0x30, 0x30, 0x30), (0x3a, 0x3a, 0x3a), (0x44, 0x44, 0x44), (0x4e, 0x4e, 0x4e),
  (0x58, 0x58, 0x58), (0x60, 0x60, 0x60), (0x66, 0x66, 0x66), (0x76, 0x76, 0x76),
  (0x80, 0x80, 0x80), (0x8a, 0x8a, 0x8a), (0x94, 0x94, 0x94), (0x9e, 0x9e, 0x9e),
  (0xa8, 0xa8, 0xa8), (0xb2, 0xb2, 0xb2), (0xbc, 0xbc, 0xbc), (0xc6, 0xc6, 0xc6),
  (0xd0, 0xd0, 0xd0), (0xda, 0xda, 0xda), (0xe4, 0xe4, 0xe4), (0xee, 0xee, 0xee)]

/-- The full-block glyph `'\u{2588}'` that the spec's CellRenderer section
names for the lone-trailing-row case (the program prints `upperHalfChar`
there instead). -/
def fullBlockChar : Char := '█'

/-- Per the spec's words (C2): a kernel neighbor at signed coordinates
`(x', y')` is "skipped exactly when x' < 0, x' ≥ width, or y' ≥ height";
otherwise each channel is updated to `clamp(old + residual*weight/48, 0, 255)`.
Written for comparison against `pixAdd`. -/
def pixAddSpecC2 (raw : List ℕ) (w h : ℕ) (x' y' : ℤ) (diff : ℤ × ℤ × ℤ)
    (num den : ℤ) : List ℕ :=
  if 0 ≤ x' ∧ x' < (w : ℤ) ∧ y' < (h : ℤ) then
    let idx := 3 * (x'.toNat + y'.toNat * w)
    updChan (updChan (updChan raw idx diff.1 num den) (idx + 1) diff.2.1 num den)
      (idx + 2) diff.2.2 num den
  else raw

/-- The claimed error-propagation phase (C2): the twelve kernel neighbors,
each handled by `pixAddSpecC2` at exact signed coordinates. -/
def diffuseSpecC2 (raw : List ℕ) (w h x y : ℕ) (diff : ℤ × ℤ × ℤ) : List ℕ :=
  kernel.foldl
    (fun rw t => pixAddSpecC2 rw w h ((x : ℤ) + t.1) ((y : ℤ) + (t.2.1 : ℤ)) diff t.2.2 48) raw

/-- The amended neighbor update: skipped exactly when `x' ≤ 0`, `x' ≥ width`
or `y' ≥ height` (column 0 is also skipped), at exact signed coordinates. -/
def pixAddSpecA (raw : List ℕ) (w h : ℕ) (x' y' : ℤ) (diff : ℤ × ℤ × ℤ)
    (num den : ℤ) : List ℕ :=
  if 0 < x' ∧ x' < (w : ℤ) ∧ y' < (h : ℤ) then
    let idx := 3 * (x'.toNat + y'.toNat * w)
    updChan (updChan (updChan raw idx diff.1 num den) (idx + 1) diff.2.1 num den)
      (idx + 2) diff.2.2 num den
  else raw

/-- The amended error-propagation phase: twelve kernel neighbors, each
handled by `pixAddSpecA` at exact signed coordinates. -/
def diffuseSpecA (raw : List ℕ) (w h x y : ℕ) (diff : ℤ × ℤ × ℤ) : List ℕ :=
  kernel.foldl
    (fun rw t => pixAddSpecA rw w h ((x : ℤ) + t.1) ((y : ℤ) + (t.2.1 : ℤ)) diff t.2.2 48) raw

/-! ### Properties of the nearest-color fold -/

/-- Invariants of the `min_by_key` fold: the result is the running best or a
listed candidate; its key is minimal; a best that is already minimal
survives; and among equal keys the earliest (smallest virtual index) wins. -/
theorem nearestAux_spec (p d : Pix) :
    ∀ (cs : List Pix) (i : ℕ) (best : ℕ × Pix), best.1 < i →
      (nearestAux p cs i best = best ∨
        ∃ j, j < cs.length ∧ nearestAux p cs i best = (i + j, cs.getD j d)) ∧
      sqDist p (nearestAux p cs i best).2 ≤ sqDist p best.2 ∧
      (∀ j, j < cs.length →
        sqDist p (nearestAux p cs i best).2 ≤ sqDist p (cs.getD j d)) ∧
      (sqDist p best.2 ≤ sqDist p (nearestAux p cs i best).2 →
        nearestAux p cs i best = best) ∧
      (∀ j, j < cs.length →
        sqDist p (cs.getD j d) ≤ sqDist p (nearestAux p cs i best).2 →
        (nearestAux p cs i best).1 ≤ i + j) := by
  intro cs
  induction cs with
  | nil =>
      intro i best hbi
      refine ⟨Or.inl rfl, le_refl _, ?_, fun _ => rfl, ?_⟩ <;> intro j hj <;> simp at hj
  | cons c cs ih =>
      intro i best hbi
      by_cases hc : sqDist p c < sqDist p best.2
      · have hstep : nearestAux p (c :: cs) i best = nearestAux p cs (i + 1) (i, c) := by
          simp [nearestAux, hc]
        obtain ⟨H1, H2, H3, H4, H5⟩ := ih (i + 1) (i, c) (by omega)
        rw [hstep]
        refine ⟨?_, ?_, ?_, ?_, ?_⟩
        · rcases H1 with h | ⟨j, hj, hjeq⟩
          · exact Or.inr ⟨0, by simp, by rw [h]; simp⟩
          · refine Or.inr ⟨j + 1, by simp; omega, ?_⟩
            rw [hjeq]
            simp [List.getD_cons_succ]
            omega
        · exact le_trans H2 (le_of_lt hc)
        · intro j hj
          match j with
          | 0 => simpa using H2
          | j + 1 => simpa using H3 j (by simp at hj; omega)
        · intro hge
          exfalso
          have h1 : sqDist p (nearestAux p cs (i + 1) (i, c)).2 ≤ sqDist p c := by
            simpa using H2
          exact absurd hc (not_lt.mpr (le_trans hge h1))
        · intro j hj hle
          match j with
          | 0 =>
              have hkeq : sqDist p (i, c).2 ≤ sqDist p (nearestAux p cs (i + 1) (i, c)).2 := by
                simpa using hle
              rw [H4 hkeq]
              simp
          | j + 1 =>
              have := H5 j (by simp at hj; omega) (by simpa using hle)
              omega
      · have hstep : nearestAux p (c :: cs) i best = nearestAux p cs (i + 1) best := by
          simp [nearestAux, hc]
        obtain ⟨H1, H2, H3, H4, H5⟩ := ih (i + 1) best (by omega)
        rw [hstep]
        have hbc : sqDist p best.2 ≤ sqDist p c := le_of_not_lt hc
        refine ⟨?_, H2, ?_, H4, ?_⟩
        · rcases H1 with h | ⟨j, hj, hjeq⟩
          · exact Or.inl h
          · refine Or.inr ⟨j + 1, by simp; omega, ?_⟩
            rw [hjeq]
            simp [List.getD_cons_succ]
            omega
        · intro j hj
          match j with
          | 0 => simpa using le_trans H2 hbc
          | j + 1 => simpa using H3 j (by simp at hj; omega)
        · intro j hj hle
          match j with
          | 0 =>
              have hle0 : sqDist p c ≤ sqDist p (nearestAux p cs (i + 1) best).2 := by
                simpa using hle
              have := H4 (le_trans hbc hle0)
              rw [this]
              omega
          | j + 1 =>
              have := H5 j (by simp at hj; omega) (by simpa using hle)
              omega

/-- The selection of `dither`'s `min_by_key`: the returned index is in
range, names its own color, attains the minimal squared distance, and is
the least index doing so. -/
theorem nearest_spec (colors : List Pix) (p d : Pix) (hne : colors ≠ []) :
    (nearest colors p).1 < colors.length ∧
    (nearest colors p).2 = colors.getD (nearest colors p).1 d ∧
    (∀ j, j < colors.length →
      sqDist p (nearest colors p).2 ≤ sqDist p (colors.getD j d)) ∧
    (∀ j, j < colors.length →
      sqDist p (colors.getD j d) ≤ sqDist p (nearest colors p).2 →
      (nearest colors p).1 ≤ j) := by
  match colors with
  | [] => exact absurd rfl hne
  | c :: cs =>
      obtain ⟨H1, H2, H3, H4, H5⟩ := nearestAux_spec p d cs 1 (0, c) (by norm_num)
      have hres : nearest (c :: cs) p = nearestAux p cs 1 (0, c) := rfl
      rw [hres]
      refine ⟨?_, ?_, ?_, ?_⟩
      · rcases H1 with h | ⟨j, hj, hjeq⟩
        · rw [h]; simp
        · rw [hjeq]; simp; omega
      · rcases H1 with h | ⟨j, hj, hjeq⟩
        · rw [h]; simp
        · rw [hjeq]
          have h1j : 1 + j = j + 1 := by omega
          simp [h1j, List.getD_cons_succ]
      · intro j hj
        match j with
        | 0 => simpa using H2
        | j + 1 => simpa using H3 j (by simp at hj; omega)
      · intro j hj hle
        match j with
        | 0 =>
            have : sqDist p (0, c).2 ≤ sqDist p (nearestAux p cs 1 (0, c)).2 := by
              simpa using hle
            rw [H4 this]
        | j + 1 =>
            have := H5 j (by simp at hj; omega) (by simpa using hle)
            omega

/-- C1: For every pixel processed by `dither` (one `ditherStep` on any
state) and every 256-entry palette, the recorded palette index minimizes
the sum of squared per-channel differences against the pixel's current,
possibly error-adjusted, value, and on ties the lowest palette index is
selected (stable first-minimum). -/
theorem ditherStep_picks_first_min (colors : List Pix) (h256 : colors.length = 256)
    (w h : ℕ) (st : List ℕ × List ℕ) (x y : ℕ) :
    ∃ i, (ditherStep colors w h st (x, y)).1 = st.1 ++ [i] ∧ i < 256 ∧
      (∀ j, j < 256 →
        sqDist (curPix st.2 w x y) (colors.getD i (0, 0, 0)) ≤
          sqDist (curPix st.2 w x y) (colors.getD j (0, 0, 0))) ∧
      (∀ j, j < 256 →
        sqDist (curPix st.2 w x y) (colors.getD j (0, 0, 0)) =
          sqDist (curPix st.2 w x y) (colors.getD i (0, 0, 0)) → i ≤ j) := by
  have hne : colors ≠ [] := by
    intro hnil
    rw [hnil] at h256
    simp at h256
  obtain ⟨Hlt, Hgd, Hmin, Hleast⟩ := nearest_spec colors (curPix st.2 w x y) (0, 0, 0) hne
  refine ⟨(nearest colors (curPix st.2 w x y)).1, rfl, by omega, ?_, ?_⟩
  · intro j hj
    have := Hmin j (by omega)
    rwa [Hgd] at this
  · intro j hj heq
    refine Hleast j (by omega) ?_
    rw [← Hgd] at heq
    exact le_of_eq heq

set_option maxRecDepth 16384 in
/-- Witness for `ditherStep_picks_first_min` at the program's palette and a
concrete one-pixel state. -/
theorem ditherStep_picks_first_min_witness :
    ANSI_COLORS.length = 256 ∧
    ∃ i, (ditherStep ANSI_COLORS 1 1 ([], [100, 0, 0]) (0, 0)).1 = [] ++ [i] ∧ i < 256 ∧
      (∀ j, j < 256 →
        sqDist (curPix [100, 0, 0] 1 0 0) (ANSI_COLORS.getD i (0, 0, 0)) ≤
          sqDist (curPix [100, 0, 0] 1 0 0) (ANSI_COLORS.getD j (0, 0, 0))) ∧
      (∀ j, j < 256 →
        sqDist (curPix [100, 0, 0] 1 0 0) (ANSI_COLORS.getD j (0, 0, 0)) =
          sqDist (curPix [100, 0, 0] 1 0 0) (ANSI_COLORS.getD i (0, 0, 0)) → i ≤ j) :=
  ⟨by decide, ditherStep_picks_first_min ANSI_COLORS (by decide) 1 1 ([], [100, 0, 0]) 0 0⟩

/-! ### Exact palette matches give zero residual -/

theorem sqDist_nonneg (p c : Pix) : 0 ≤ sqDist p c := by
  have h1 := mul_self_nonneg ((p.1 : ℤ) - (c.1 : ℤ))
  have h2 := mul_self_nonneg ((p.2.1 : ℤ) - (c.2.1 : ℤ))
  have h3 := mul_self_nonneg ((p.2.2 : ℤ) - (c.2.2 : ℤ))
  unfold sqDist
  omega

theorem sqDist_self (p : Pix) : sqDist p p = 0 := by
  unfold sqDist
  ring

theorem sqDist_eq_zero (p c : Pix) (hz : sqDist p c = 0) : p = c := by
  have h1 := mul_self_nonneg ((p.1 : ℤ) - (c.1 : ℤ))
  have h2 := mul_self_nonneg ((p.2.1 : ℤ) - (c.2.1 : ℤ))
  have h3 := mul_self_nonneg ((p.2.2 : ℤ) - (c.2.2 : ℤ))
  unfold sqDist at hz
  have e1 : ((p.1 : ℤ) - (c.1 : ℤ)) * ((p.1 : ℤ) - (c.1 : ℤ)) = 0 := by omega
  have e2 : ((p.2.1 : ℤ) - (c.2.1 : ℤ)) * ((p.2.1 : ℤ) - (c.2.1 : ℤ)) = 0 := by omega
  have e3 : ((p.2.2 : ℤ) - (c.2.2 : ℤ)) * ((p.2.2 : ℤ) - (c.2.2 : ℤ)) = 0 := by omega
  have f1 : p.1 = c.1 := by
    have := mul_self_eq_zero.mp e1
    omega
  have f2 : p.2.1 = c.2.1 := by
    have := mul_self_eq_zero.mp e2
    omega
  have f3 : p.2.2 = c.2.2 := by
    have := mul_self_eq_zero.mp e3
    omega
  exact Prod.ext f1 (Prod.ext f2 f3)

/-- If some palette entry equals the pixel exactly, the selected entry is
the first exact match: its color is the pixel itself (zero residual) and
its index is least among exact matches. -/
theorem nearest_exact (colors : List Pix) (p : Pix) (k : ℕ) (hk : k < colors.length)
    (hkp : colors.getD k (0, 0, 0) = p) :
    (nearest colors p).2 = p ∧ (nearest colors p).1 ≤ k ∧
    (∀ j', j' < (nearest colors p).1 → colors.getD j' (0, 0, 0) ≠ p) := by
  have hne : colors ≠ [] := by
    intro hnil
    rw [hnil] at hk
    simp at hk
  obtain ⟨Hlt, Hgd, Hmin, Hleast⟩ := nearest_spec colors p (0, 0, 0) hne
  have hz : sqDist p (nearest colors p).2 = 0 := by
    have hub := Hmin k hk
    rw [hkp, sqDist_self] at hub
    exact le_antisymm hub (sqDist_nonneg _ _)
  have hcol : (nearest colors p).2 = p := (sqDist_eq_zero _ _ hz).symm
  refine ⟨hcol, ?_, ?_⟩
  · refine Hleast k hk ?_
    rw [hkp, sqDist_self, hz]
  · intro j' hj' hj'p
    have : (nearest colors p).1 ≤ j' := by
      refine Hleast j' (by omega) ?_
      rw [hj'p, sqDist_self, hz]
    omega

/-! ### Zero residual perturbs nothing -/

theorem foldl_const {α β : Type} (f : β → α → β) (b : β) (ts : List α)
    (hf : ∀ t ∈ ts, f b t = b) : ts.foldl f b = b := by
  induction ts with
  | nil => rfl
  | cons t ts ih =>
      rw [List.foldl_cons, hf t (by simp)]
      exact ih fun t' ht' => hf t' (by simp [ht'])

theorem getD_le_of_all : ∀ (l : List ℕ), (∀ c ∈ l, c ≤ 255) → ∀ i, l.getD i 0 ≤ 255
  | [], _, i => by simp
  | a :: t, hl, 0 => by simpa using hl a (by simp)
  | a :: t, hl, i + 1 => by
      simpa [List.getD_cons_succ] using
        getD_le_of_all t (fun c hc => hl c (by simp [hc])) i

theorem set_getD_self (l : List ℕ) : ∀ i, l.set i (l.getD i 0) = l := by
  induction l with
  | nil => intro i; simp
  | cons a t ih =>
      intro i
      cases i with
      | zero => simp
      | succ n => rw [List.getD_cons_succ, List.set_cons_succ, ih n]

theorem clampU8_of_le (c : ℕ) (hc : c ≤ 255) : clampU8 (c : ℤ) = c := by
  simp only [clampU8]
  omega

theorem chanAdd_zero (c : ℕ) (hc : c ≤ 255) (num den : ℤ) : chanAdd c 0 num den = c := by
  simp only [chanAdd, zero_mul, Int.zero_tdiv, add_zero]
  exact clampU8_of_le c hc

theorem updChan_zero (l : List ℕ) (hl : ∀ c ∈ l, c ≤ 255) (i : ℕ) (num den : ℤ) :
    updChan l i 0 num den = l := by
  unfold updChan
  rw [chanAdd_zero _ (getD_le_of_all l hl i)]
  exact set_getD_self l i

theorem pixAdd_zero (l : List ℕ) (hl : ∀ c ∈ l, c ≤ 255) (w h x' y' : ℕ) (num den : ℤ) :
    pixAdd l w h x' y' (0, 0, 0) num den = l := by
  simp only [pixAdd]
  split
  · simp [updChan_zero l hl]
  · rfl

theorem diffuse_zero (l : List ℕ) (hl : ∀ c ∈ l, c ≤ 255) (w h x y : ℕ) :
    diffuse l w h x y (0, 0, 0) = l := by
  unfold diffuse
  exact foldl_const _ _ _ fun t _ => pixAdd_zero l hl w h _ _ _ _

/-! ### Uniform buffers -/

theorem uniformRaw_le (n : ℕ) (p : Pix)
    (hp : p.1 ≤ 255 ∧ p.2.1 ≤ 255 ∧ p.2.2 ≤ 255) :
    ∀ c ∈ uniformRaw n p, c ≤ 255 := by
  induction n with
  | zero => simp [uniformRaw]
  | succ n ih =>
      intro c hc
      simp only [uniformRaw, List.mem_cons] at hc
      rcases hc with rfl | rfl | rfl | h
      · exact hp.1
      · exact hp.2.1
      · exact hp.2.2
      · exact ih c h

theorem uniformRaw_getD (p : Pix) : ∀ (m n : ℕ), m < n →
    (uniformRaw n p).getD (3 * m) 0 = p.1 ∧
    (uniformRaw n p).getD (3 * m + 1) 0 = p.2.1 ∧
    (uniformRaw n p).getD (3 * m + 2) 0 = p.2.2 := by
  intro m
  induction m with
  | zero =>
      intro n hn
      cases n with
      | zero => omega
      | succ n => simp [uniformRaw]
  | succ m ih =>
      intro n hn
      cases n with
      | zero => omega
      | succ n =>
          obtain ⟨i1, i2, i3⟩ := ih n (by omega)
          have e1 : 3 * (m + 1) = 3 * m + 1 + 1 + 1 := by ring
          have e2 : 3 * (m + 1) + 1 = (3 * m + 1) + 1 + 1 + 1 := by ring
          have e3 : 3 * (m + 1) + 2 = (3 * m + 2) + 1 + 1 + 1 := by ring
          refine ⟨?_, ?_, ?_⟩
          · show (p.1 :: p.2.1 :: p.2.2 :: uniformRaw n p).getD (3 * (m + 1)) 0 = p.1
            rw [e1, List.getD_cons_succ, List.getD_cons_succ, List.getD_cons_succ]
            exact i1
          · show (p.1 :: p.2.1 :: p.2.2 :: uniformRaw n p).getD (3 * (m + 1) + 1) 0 = p.2.1
            rw [e2, List.getD_cons_succ, List.getD_cons_succ, List.getD_cons_succ]
            exact i2
          · show (p.1 :: p.2.1 :: p.2.2 :: uniformRaw n p).getD (3 * (m + 1) + 2) 0 = p.2.2
            rw [e3, List.getD_cons_succ, List.getD_cons_succ, List.getD_cons_succ]
            exact i3

theorem raster_index_lt (x y w h : ℕ) (hx : x < w) (hy : y < h) : x + y * w < w * h := by
  calc x + y * w < w + y * w := by omega
    _ = (y + 1) * w := by ring
    _ ≤ h * w := Nat.mul_le_mul_right w (by omega)
    _ = w * h := by ring

theorem curPix_uniform (p : Pix) (w h x y : ℕ) (hx : x < w) (hy : y < h) :
    curPix (uniformRaw (w * h) p) w x y = p := by
  obtain ⟨i1, i2, i3⟩ :=
    uniformRaw_getD p (x + y * w) (w * h) (raster_index_lt x y w h hx hy)
  unfold curPix readChan
  rw [i1, i2, i3]

theorem ditherStep_uniform (colors : List Pix) (p : Pix)
    (hp : p.1 ≤ 255 ∧ p.2.1 ≤ 255 ∧ p.2.2 ≤ 255)
    (hnr : (nearest colors p).2 = p) (w h x y : ℕ) (res : List ℕ)
    (hx : x < w) (hy : y < h) :
    ditherStep colors w h (res, uniformRaw (w * h) p) (x, y)
      = (res ++ [(nearest colors p).1], uniformRaw (w * h) p) := by
  simp only [ditherStep]
  rw [curPix_uniform p w h x y hx hy, hnr]
  simp only [sub_self]
  rw [diffuse_zero _ (uniformRaw_le (w * h) p hp) w h x y]

theorem dither_fold_uniform (colors : List Pix) (p : Pix)
    (hp : p.1 ≤ 255 ∧ p.2.1 ≤ 255 ∧ p.2.2 ≤ 255)
    (hnr : (nearest colors p).2 = p) (w h : ℕ) :
    ∀ (ps : List (ℕ × ℕ)), (∀ q ∈ ps, q.1 < w ∧ q.2 < h) → ∀ res,
      List.foldl (ditherStep colors w h) (res, uniformRaw (w * h) p) ps
        = (res ++ List.replicate ps.length (nearest colors p).1, uniformRaw (w * h) p) := by
  intro ps
  induction ps with
  | nil => intro _ res; simp
  | cons q qs ih =>
      intro hq res
      rw [List.foldl_cons]
      have hq1 := (hq q (by simp)).1
      have hq2 := (hq q (by simp)).2
      have hqpair : q = (q.1, q.2) := rfl
      have hstep : ditherStep colors w h (res, uniformRaw (w * h) p) q
          = (res ++ [(nearest colors p).1], uniformRaw (w * h) p) := by
        rw [hqpair]
        exact ditherStep_uniform colors p hp hnr w h q.1 q.2 res hq1 hq2
      rw [hstep, ih (fun q' hq' => hq q' (by simp [hq'])) (res ++ [(nearest colors p).1])]
      simp [List.replicate_succ]

theorem positions_mem (w : ℕ) : ∀ (h : ℕ) (q : ℕ × ℕ), q ∈ positions w h →
    q.1 < w ∧ q.2 < h := by
  intro h
  induction h with
  | zero => intro q hq; simp [positions] at hq
  | succ h ih =>
      intro q hq
      simp only [positions, List.mem_append] at hq
      rcases hq with hq | hq
      · have := ih q hq
        omega
      · simp only [rowPositions, List.mem_map, List.mem_range] at hq
        obtain ⟨x, hx, rfl⟩ := hq
        exact ⟨hx, by omega⟩

theorem positions_length (w : ℕ) : ∀ h, (positions w h).length = w * h := by
  intro h
  induction h with
  | zero => simp [positions]
  | succ h ih =>
      simp [positions, rowPositions, ih]
      ring

/-! ### The program's palette -/

set_option maxRecDepth 16384 in
theorem ANSI_COLORS_length : ANSI_COLORS.length = 256 := by decide

set_option maxRecDepth 16384 in
theorem ANSI_COLORS_channels_le : ∀ c ∈ ANSI_COLORS, c.1 ≤ 255 ∧ c.2.1 ≤ 255 ∧ c.2.2 ≤ 255 := by
  decide

theorem getD_mem_or (l : List Pix) : ∀ (k : ℕ) (d : Pix), l.getD k d ∈ l ∨ l.getD k d = d := by
  induction l with
  | nil => intro k d; right; simp
  | cons a t ih =>
      intro k d
      cases k with
      | zero => left; simp
      | succ k =>
          rw [List.getD_cons_succ]
          rcases ih k d with h | h
          · exact Or.inl (List.mem_cons_of_mem a h)
          · exact Or.inr h

theorem ANSI_getD_channels_le (k : ℕ) :
    (ANSI_COLORS.getD k (0, 0, 0)).1 ≤ 255 ∧
    (ANSI_COLORS.getD k (0, 0, 0)).2.1 ≤ 255 ∧
    (ANSI_COLORS.getD k (0, 0, 0)).2.2 ≤ 255 := by
  rcases getD_mem_or ANSI_COLORS k (0, 0, 0) with h | h
  · exact ANSI_COLORS_channels_le _ h
  · rw [h]
    refine ⟨by norm_num, by norm_num, by norm_num⟩

/-- C9 amended: a uniform image whose color exactly equals palette entry `k`
dithers with zero residual and an unperturbed buffer (also at every
intermediate state), but the recorded index is the *least* index whose
palette entry equals entry `k`'s color — `k` itself only when entry `k` is
not duplicated at a lower index. -/
theorem dither_uniform_exact (k : ℕ) (hk : k < 256) (w h : ℕ) :
    ∃ j, j ≤ k ∧
      ANSI_COLORS.getD j (0, 0, 0) = ANSI_COLORS.getD k (0, 0, 0) ∧
      (∀ j', j' < j → ANSI_COLORS.getD j' (0, 0, 0) ≠ ANSI_COLORS.getD k (0, 0, 0)) ∧
      (nearest ANSI_COLORS (ANSI_COLORS.getD k (0, 0, 0))).2 = ANSI_COLORS.getD k (0, 0, 0) ∧
      (∀ ps : List (ℕ × ℕ), (∀ q ∈ ps, q.1 < w ∧ q.2 < h) → ∀ res,
        List.foldl (ditherStep ANSI_COLORS w h)
            (res, uniformRaw (w * h) (ANSI_COLORS.getD k (0, 0, 0))) ps
          = (res ++ List.replicate ps.length j,
              uniformRaw (w * h) (ANSI_COLORS.getD k (0, 0, 0)))) ∧
      dither ANSI_COLORS w h (uniformRaw (w * h) (ANSI_COLORS.getD k (0, 0, 0)))
        = (List.replicate (w * h) j,
            uniformRaw (w * h) (ANSI_COLORS.getD k (0, 0, 0))) := by
  have hk' : k < ANSI_COLORS.length := by rw [ANSI_COLORS_length]; omega
  have hne : ANSI_COLORS ≠ [] := by
    intro hnil
    rw [hnil] at hk'
    simp at hk'
  obtain ⟨hcol, hle, hfirst⟩ :=
    nearest_exact ANSI_COLORS (ANSI_COLORS.getD k (0, 0, 0)) k hk' rfl
  obtain ⟨Hlt, Hgd, Hmin, Hleast⟩ :=
    nearest_spec ANSI_COLORS (ANSI_COLORS.getD k (0, 0, 0)) (0, 0, 0) hne
  have hfold := dither_fold_uniform ANSI_COLORS (ANSI_COLORS.getD k (0, 0, 0))
    (ANSI_getD_channels_le k) hcol w h
  refine ⟨(nearest ANSI_COLORS (ANSI_COLORS.getD k (0, 0, 0))).1, hle, ?_, hfirst, hcol, hfold, ?_⟩
  · rw [← Hgd, hcol]
  · unfold dither
    rw [hfold (positions w h) (fun q hq => positions_mem w h q hq) []]
    rw [positions_length]
    simp

set_option maxRecDepth 16384 in
/-- Witness for `dither_uniform_exact` at `k = 16`, `w = 2`, `h = 2`. -/
theorem dither_uniform_exact_witness :
    ∃ j, j ≤ 16 ∧
      ANSI_COLORS.getD j (0, 0, 0) = ANSI_COLORS.getD 16 (0, 0, 0) ∧
      (∀ j', j' < j → ANSI_COLORS.getD j' (0, 0, 0) ≠ ANSI_COLORS.getD 16 (0, 0, 0)) ∧
      (nearest ANSI_COLORS (ANSI_COLORS.getD 16 (0, 0, 0))).2 = ANSI_COLORS.getD 16 (0, 0, 0) ∧
      (∀ ps : List (ℕ × ℕ), (∀ q ∈ ps, q.1 < 2 ∧ q.2 < 2) → ∀ res,
        List.foldl (ditherStep ANSI_COLORS 2 2)
            (res, uniformRaw (2 * 2) (ANSI_COLORS.getD 16 (0, 0, 0))) ps
          = (res ++ List.replicate ps.length j,
              uniformRaw (2 * 2) (ANSI_COLORS.getD 16 (0, 0, 0)))) ∧
      dither ANSI_COLORS 2 2 (uniformRaw (2 * 2) (ANSI_COLORS.getD 16 (0, 0, 0)))
        = (List.replicate (2 * 2) j,
            uniformRaw (2 * 2) (ANSI_COLORS.getD 16 (0, 0, 0))) :=
  dither_uniform_exact 16 (by omega) 2 2

/-- C9 counterexample: palette entry 16 duplicates entry 0 (both are black),
so a uniform image exactly equal to entry 16 produces an IndexGrid of all
0's, not all 16's. -/
theorem dither_uniform_not_all_k :
    ANSI_COLORS.getD 16 (0, 0, 0) = (0, 0, 0) ∧
    (dither ANSI_COLORS 1 1 (uniformRaw (1 * 1) (ANSI_COLORS.getD 16 (0, 0, 0)))).1 = [0] ∧
    (dither ANSI_COLORS 1 1 (uniformRaw (1 * 1) (ANSI_COLORS.getD 16 (0, 0, 0)))).1 ≠ [16] := by
  have h16 : ANSI_COLORS.getD 16 (0, 0, 0) = (0, 0, 0) := by decide
  have h0 : ANSI_COLORS.getD 0 (0, 0, 0) = (0, 0, 0) := by decide
  have hk0 : (0 : ℕ) < ANSI_COLORS.length := by rw [ANSI_COLORS_length]; omega
  obtain ⟨hcol, hle, _⟩ := nearest_exact ANSI_COLORS (0, 0, 0) 0 hk0 h0
  have hj : (nearest ANSI_COLORS (0, 0, 0)).1 = 0 := by omega
  have hfold := dither_fold_uniform ANSI_COLORS (0, 0, 0) (by norm_num) hcol 1 1
    (positions 1 1) (fun q hq => positions_mem 1 1 q hq) []
  have hdither : (dither ANSI_COLORS 1 1 (uniformRaw (1 * 1) (0, 0, 0))).1 = [0] := by
    unfold dither
    rw [hfold, positions_length, hj]
    rfl
  refine ⟨h16, ?_, ?_⟩
  · rw [h16]
    exact hdither
  · rw [h16, hdither]
    decide

/-! ### The neighbor-update guard -/

theorem foldl_congr_mem {α β : Type} (l : List α) (f g : β → α → β) :
    ∀ b, (∀ t ∈ l, ∀ b', f b' t = g b' t) → l.foldl f b = l.foldl g b := by
  induction l with
  | nil => intro b _; rfl
  | cons t ts ih =>
      intro b hfg
      rw [List.foldl_cons, List.foldl_cons, hfg t (by simp) b]
      exact ih _ fun t' ht' b' => hfg t' (by simp [ht']) b'

theorem kernel_bounds : ∀ t ∈ kernel, -2 ≤ t.1 ∧ t.1 ≤ 2 ∧ t.2.1 ≤ 2 := by decide

/-- For an in-bounds pixel of a real-sized image, the wrapping-`u32`
`pix_add!` call agrees with the exact-coordinate amended description:
negative neighbor coordinates wrap to huge values and fail `x' < width`,
and column 0 fails the strict `x' > 0` test. -/
theorem pixAdd_wrap_eq (raw : List ℕ) (w h x y : ℕ) (dx : ℤ) (dy : ℕ)
    (diff : ℤ × ℤ × ℤ) (num den : ℤ)
    (hdx1 : -2 ≤ dx) (hdx2 : dx ≤ 2) (hdy : dy ≤ 2)
    (hx : x < w) (hy : y < h) (hw : w + 2 < U32) (hh : h + 2 < U32) :
    pixAdd raw w h (wrapX x dx) ((y + dy) % U32) diff num den =
      pixAddSpecA raw w h ((x : ℤ) + dx) ((y : ℤ) + (dy : ℤ)) diff num den := by
  have hU : U32 = 4294967296 := rfl
  have hUZ : ((U32 : ℕ) : ℤ) = 4294967296 := by rw [hU]; norm_num
  have hymod : (y + dy) % U32 = y + dy := Nat.mod_eq_of_lt (by omega)
  have htn : ((y : ℤ) + (dy : ℤ)).toNat = y + dy := by omega
  by_cases hxpos : 0 ≤ (x : ℤ) + dx
  · have hemod : ((x : ℤ) + dx).emod ((U32 : ℕ) : ℤ) = (x : ℤ) + dx := by
      rw [hUZ]
      show ((x : ℤ) + dx) % 4294967296 = (x : ℤ) + dx
      omega
    have hwrap : wrapX x dx = ((x : ℤ) + dx).toNat := by
      unfold wrapX
      rw [hemod]
    simp only [pixAdd, pixAddSpecA, hwrap, hymod, htn]
    by_cases hcond : 0 < (x : ℤ) + dx ∧ (x : ℤ) + dx < (w : ℤ) ∧ (y : ℤ) + (dy : ℤ) < (h : ℤ)
    · rw [if_pos (by omega : 0 < ((x : ℤ) + dx).toNat ∧ ((x : ℤ) + dx).toNat < w ∧ y + dy < h),
        if_pos hcond]
    · rw [if_neg (by omega :
          ¬(0 < ((x : ℤ) + dx).toNat ∧ ((x : ℤ) + dx).toNat < w ∧ y + dy < h)),
        if_neg hcond]
  · have hemod : ((x : ℤ) + dx).emod ((U32 : ℕ) : ℤ) = (x : ℤ) + dx + 4294967296 := by
      rw [hUZ]
      show ((x : ℤ) + dx) % 4294967296 = (x : ℤ) + dx + 4294967296
      omega
    have hwrap : wrapX x dx = ((x : ℤ) + dx + 4294967296).toNat := by
      unfold wrapX
      rw [hemod]
    simp only [pixAdd, pixAddSpecA, hwrap, hymod, htn]
    rw [if_neg (by omega :
        ¬(0 < ((x : ℤ) + dx + 4294967296).toNat ∧
          ((x : ℤ) + dx + 4294967296).toNat < w ∧ y + dy < h)),
      if_neg (by omega : ¬(0 < (x : ℤ) + dx ∧ (x : ℤ) + dx < (w : ℤ) ∧ (y : ℤ) + (dy : ℤ) < (h : ℤ)))]

/-- C2 amended: during error propagation, for every in-bounds pixel of an
image of realistic size, a kernel neighbor is updated exactly when
`1 ≤ x' < width` and `y' < height` (neighbors in column `x' = 0` are
skipped along with out-of-range ones), each updated channel becoming
`clamp(old + residual*weight/48, 0, 255)` with truncating division and
saturating clamp. -/
theorem diffuse_updates_iff (raw : List ℕ) (w h x y : ℕ) (diff : ℤ × ℤ × ℤ)
    (hx : x < w) (hy : y < h) (hw : w + 2 < U32) (hh : h + 2 < U32) :
    diffuse raw w h x y diff = diffuseSpecA raw w h x y diff := by
  unfold diffuse diffuseSpecA
  refine foldl_congr_mem kernel _ _ raw ?_
  intro t ht b
  obtain ⟨h1, h2, h3⟩ := kernel_bounds t ht
  exact pixAdd_wrap_eq b w h x y t.1 t.2.1 diff t.2.2 48 h1 h2 h3 hx hy hw hh

/-- Witness for `diffuse_updates_iff` on a concrete 3×3 zero buffer. -/
theorem diffuse_updates_iff_witness :
    1 < 3 ∧ 1 < 3 ∧ 3 + 2 < U32 ∧ 3 + 2 < U32 ∧
    diffuse (List.replicate 27 0) 3 3 1 1 (48, -48, 7)
      = diffuseSpecA (List.replicate 27 0) 3 3 1 1 (48, -48, 7) :=
  ⟨by omega, by omega, by norm_num [U32], by norm_num [U32],
    diffuse_updates_iff (List.replicate 27 0) 3 3 1 1 (48, -48, 7)
      (by omega) (by omega) (by norm_num [U32]) (by norm_num [U32])⟩

/-- C2 counterexample: at pixel (1,0) of a 2×2 image, the kernel neighbor
(0,1) satisfies 0 ≤ x' < width and y' < height, yet the program's
propagation (strict `$x > 0` test) leaves it untouched, so the buffer
differs from the claimed description. -/
theorem diffuse_ne_specC2 :
    diffuse (List.replicate 12 0) 2 2 1 0 (48, 48, 48)
      ≠ diffuseSpecC2 (List.replicate 12 0) 2 2 1 0 (48, 48, 48) := by decide

/-! ### The propagation kernel table -/

/-- C3: `dither`'s propagation kernel is exactly the listed twelve
(offset, weight) entries over the common denominator 48; the weights sum to
exactly 48, so the weighted residual shares total `48·r` — the full
residual, no loss or gain at the level of the weight table. -/
theorem kernel_weights_sum :
    kernel = [(1, 0, 7), (2, 0, 5),
        (-2, 1, 3), (-1, 1, 5), (0, 1, 7), (1, 1, 5), (2, 1, 3),
        (-2, 2, 1), (-1, 2, 3), (0, 2, 5), (1, 2, 3), (2, 2, 1)] ∧
    kernel.length = 12 ∧
    (kernel.map fun t => t.2.2).sum = 48 ∧
    ∀ r : ℤ, (kernel.map fun t => r * t.2.2).sum = 48 * r := by
  refine ⟨rfl, rfl, by decide, fun r => ?_⟩
  simp [kernel]
  ring

/-! ### Geometry resolution -/

/-- C7: `determine_size` returns `none` exactly when no width, no height and
no terminal size are available; with any of them present it succeeds. -/
theorem determine_size_none_iff (aspect : ℚ) (dw dh : Option ℕ)
    (term : Option (ℕ × ℕ)) :
    determine_size aspect dw dh term = none ↔ dw = none ∧ dh = none ∧ term = none := by
  cases dw with
  | some w => cases dh <;> simp [determine_size]
  | none =>
      cases dh with
      | some hgt => simp [determine_size]
      | none =>
          cases term with
          | none => simp [determine_size]
          | some wh =>
              simp only [determine_size, Option.map_none']
              constructor
              · intro hcontra
                split at hcontra <;> split at hcontra <;> simp at hcontra
              · rintro ⟨-, -, habs⟩
                exact absurd habs (by simp)

/-- C4 counterexample: with positive aspect 2 and positive desired width 1
(no height, no terminal) resolution succeeds but returns height 0. -/
theorem determine_size_zero_height :
    determine_size 2 (some 1) none none = some (1, 0) ∧ ¬ 0 < (0 : ℕ) := by
  refine ⟨?_, by omega⟩
  norm_num [determine_size, f32ToU16, Int.toNat_ofNat]

/-- C4 amended: once resolution succeeds, the returned width equals the
desired width whenever one was supplied (hence is positive); the returned
height, however, can be 0. -/
theorem determine_size_width_given_pos (aspect : ℚ) (dh : Option ℕ)
    (term : Option (ℕ × ℕ)) (w : ℕ) (hw : 0 < w) (g : ℕ × ℕ)
    (hg : determine_size aspect (some w) dh term = some g) :
    g.1 = w ∧ 0 < g.1 := by
  cases dh <;>
    simp only [determine_size, Option.map_some', Option.map_none',
      Option.some.injEq] at hg <;>
    rw [← hg] <;>
    exact ⟨rfl, hw⟩

/-- Witness for `determine_size_width_given_pos` at aspect 1, width 3. -/
theorem determine_size_width_given_pos_witness :
    0 < 3 ∧ determine_size 1 (some 3) none none = some (3, 3) ∧
      ((3, 3) : ℕ × ℕ).1 = 3 ∧ 0 < ((3, 3) : ℕ × ℕ).1 :=
  ⟨by omega, by norm_num [determine_size, f32ToU16]; omega,
    determine_size_width_given_pos 1 none none 3 (by omega) (3, 3)
      (by norm_num [determine_size, f32ToU16]; omega)⟩

/-- C5: with no size requests and a detected terminal of 80 columns and 24
rows at aspect 1.0, the rows are doubled to 48, the doubled height is the
limiting dimension (smaller of 80 and 48), and the result is (48, 48). -/
theorem determine_size_terminal_80_24 :
    determine_size 1 none none (some (80, 24)) = some (48, 48) ∧
    24 * 2 % 65536 = 48 ∧ min 80 (24 * 2 % 65536) = 48 := by
  refine ⟨?_, by norm_num, by norm_num⟩
  norm_num [determine_size, f32ToU16]
  omega

/-- C6 counterexample: aspect 1/2 (exactly representable in f32) and desired
width 65535 give floor(65535 / (1/2)) = 131070, but the program's `as u16`
cast saturates the height to 65535, not floor(width/aspect). -/
theorem determine_size_width_only_saturates :
    determine_size (1 / 2) (some 65535) none none = some (65535, 65535) ∧
    ⌊(65535 : ℚ) / (1 / 2)⌋ = 131070 ∧ (65535 : ℕ) ≠ 131070 := by
  refine ⟨?_, by norm_num, by omega⟩
  norm_num [determine_size, f32ToU16]
  omega

/-- C6 amended: when only the width is given (terminal never consulted,
height not doubled), the result is
`(width, min(floor(width/aspect), 65535))` — the floor saturated at the
u16 maximum by the float-to-int cast. -/
theorem determine_size_width_only (aspect : ℚ) (hasp : 0 < aspect) (w : ℕ)
    (term : Option (ℕ × ℕ)) :
    determine_size aspect (some w) none term
      = some (w, min (⌊(w : ℚ) / aspect⌋.toNat) 65535) := by
  have h0 : 0 ≤ ⌊(w : ℚ) / aspect⌋ :=
    Int.floor_nonneg.mpr (div_nonneg (by positivity) hasp.le)
  have hmm : (min (max ⌊(w : ℚ) / aspect⌋ 0) 65535).toNat
      = min (⌊(w : ℚ) / aspect⌋.toNat) 65535 := by omega
  simp only [determine_size, Option.map_none', f32ToU16, hmm]

/-- Witness for `determine_size_width_only`: aspect 2.0 and width 10 give
geometry (10, 5). -/
theorem determine_size_width_only_witness :
    (0 : ℚ) < 2 ∧
    determine_size 2 (some 10) none none = some (10, min (⌊(10 : ℚ) / 2⌋.toNat) 65535) ∧
    min (⌊(10 : ℚ) / 2⌋.toNat) 65535 = 5 :=
  ⟨by norm_num, determine_size_width_only 2 (by norm_num) 10 none,
    by norm_num; omega⟩

/-- C10: when a desired height is supplied it is doubled in 16-bit
arithmetic: for any request ≥ 32768 the doubled height is 2·h mod 2^16,
not 2·h; a request of exactly 32768 doubles to 0, and resolution still
reports success. -/
theorem determine_size_doubling_wraps (aspect : ℚ) (w hgt : ℕ)
    (term : Option (ℕ × ℕ)) (h1 : 32768 ≤ hgt) (h2 : hgt < 65536) :
    determine_size aspect (some w) (some hgt) term = some (w, hgt * 2 % 65536) ∧
    hgt * 2 % 65536 = hgt * 2 - 65536 ∧ hgt * 2 % 65536 ≠ hgt * 2 ∧
    determine_size aspect (some w) (some 32768) term = some (w, 0) := by
  refine ⟨by simp [determine_size], by omega, by omega, by norm_num [determine_size]⟩

/-- Witness for `determine_size_doubling_wraps` at height request 40000. -/
theorem determine_size_doubling_wraps_witness :
    32768 ≤ 40000 ∧ 40000 < 65536 ∧
    (determine_size 1 (some 7) (some 40000) none = some (7, 40000 * 2 % 65536) ∧
      40000 * 2 % 65536 = 40000 * 2 - 65536 ∧ 40000 * 2 % 65536 ≠ 40000 * 2 ∧
      determine_size 1 (some 7) (some 32768) none = some (7, 0)) :=
  ⟨by omega, by omega, determine_size_doubling_wraps 1 7 40000 none (by omega) (by omega)⟩

/-! ### Rendering -/

theorem getD_map_range {α : Type} (w c : ℕ) (hc : c < w) (f : ℕ → α) (d : α) :
    ((List.range w).map f).getD c d = f c := by
  simp [List.getD_eq_getElem?_getD, List.getElem?_map, List.getElem?_range, hc]

theorem pairLine_getD (w : ℕ) (u l : List ℕ) (c : ℕ) (hc : c < w) (d : TerminalCell) :
    (pairLine w u l).getD c d = ⟨l.getD c 0, some (u.getD c 0), lowerHalfChar⟩ :=
  getD_map_range w c hc _ d

theorem soloLine_getD (w : ℕ) (u : List ℕ) (c : ℕ) (hc : c < w) (d : TerminalCell) :
    (soloLine w u).getD c d = ⟨u.getD c 0, none, upperHalfChar⟩ :=
  getD_map_range w c hc _ d

theorem getD_take (l : List ℕ) (w i : ℕ) (hi : i < w) :
    (l.take w).getD i 0 = l.getD i 0 := by
  simp [List.getD_eq_getElem?_getD, List.getElem?_take, hi]

theorem getD_drop (l : List ℕ) (n i : ℕ) :
    (l.drop n).getD i 0 = l.getD (n + i) 0 := by
  simp [List.getD_eq_getElem?_getD, List.getElem?_drop]

/-- C8 amended: on a `w × h` grid with `h = 2m+1` odd, `render` produces
exactly `m + 1 = ⌈h/2⌉` lines in top-to-bottom order; each full-pair line
`i < m` has cells with foreground = lower row `2i+1`, background = upper
row `2i`, and the lower-half-block glyph; the last line's cells carry only
a foreground (the lone upper row `2m`) with the *upper*-half-block glyph
U+2580 (the program does not use the full block there). -/
theorem render_odd (w : ℕ) (_hw : 0 < w) : ∀ (m : ℕ) (indices : List ℕ),
    indices.length = w * (2 * m + 1) →
    (render indices w (2 * m + 1)).length = m + 1 ∧
    (∀ i, i < m → ∀ c, c < w →
      ((render indices w (2 * m + 1)).getD i []).getD c ⟨0, none, ' '⟩ =
        ⟨indices.getD ((2 * i + 1) * w + c) 0,
          some (indices.getD (2 * i * w + c) 0), lowerHalfChar⟩) ∧
    (∀ c, c < w →
      ((render indices w (2 * m + 1)).getD m []).getD c ⟨0, none, ' '⟩ =
        ⟨indices.getD (2 * m * w + c) 0, none, upperHalfChar⟩) := by
  intro m
  induction m with
  | zero =>
      intro indices hlen
      have hr : render indices w 1 = [soloLine w (indices.take w)] := rfl
      refine ⟨by rw [hr]; rfl, by intro i hi; omega, ?_⟩
      intro c hc
      rw [hr]
      simp only [List.getD_cons_zero]
      rw [soloLine_getD w _ c hc, getD_take indices w c hc]
      have e : 2 * 0 * w + c = c := by ring
      rw [e]
  | succ m ih =>
      intro indices hlen
      have hlen' : ((indices.drop w).drop w).length = w * (2 * m + 1) := by
        have e : w * (2 * (m + 1) + 1) = w * (2 * m + 1) + w + w := by ring
        simp only [List.length_drop]
        omega
      have hstep : render indices w (2 * (m + 1) + 1)
          = pairLine w (indices.take w) ((indices.drop w).take w)
            :: render ((indices.drop w).drop w) w (2 * m + 1) := by
        have e : 2 * (m + 1) + 1 = (2 * m + 1) + 1 + 1 := by ring
        rw [show render indices w (2 * (m + 1) + 1)
            = renderRows w (chunksOf w (2 * (m + 1) + 1) indices) from rfl, e]
        rfl
      obtain ⟨ihlen, ihpair, ihlast⟩ := ih ((indices.drop w).drop w) hlen'
      refine ⟨?_, ?_, ?_⟩
      · rw [hstep]
        rw [List.length_cons, ihlen]
      · intro i hi c hc
        rw [hstep]
        cases i with
        | zero =>
            simp only [List.getD_cons_zero]
            rw [pairLine_getD w _ _ c hc, getD_take indices w c hc,
              getD_take (indices.drop w) w c hc, getD_drop indices w c]
            have e1 : (2 * 0 + 1) * w + c = w + c := by ring
            have e2 : 2 * 0 * w + c = c := by ring
            rw [e1, e2]
        | succ i =>
            simp only [List.getD_cons_succ]
            rw [ihpair i (by omega) c hc,
              getD_drop (indices.drop w) w ((2 * i + 1) * w + c),
              getD_drop (indices.drop w) w (2 * i * w + c),
              getD_drop indices w (w + ((2 * i + 1) * w + c)),
              getD_drop indices w (w + (2 * i * w + c))]
            have e1 : w + (w + ((2 * i + 1) * w + c)) = (2 * (i + 1) + 1) * w + c := by ring
            have e2 : w + (w + (2 * i * w + c)) = 2 * (i + 1) * w + c := by ring
            rw [e1, e2]
      · intro c hc
        rw [hstep]
        simp only [List.getD_cons_succ]
        rw [ihlast c hc,
          getD_drop (indices.drop w) w (2 * m * w + c),
          getD_drop indices w (w + (2 * m * w + c))]
        have e : w + (w + (2 * m * w + c)) = 2 * (m + 1) * w + c := by ring
        rw [e]

/-- Witness for `render_odd`: width 2, height 3, grid `[0,1,2,3,4,5]`. -/
theorem render_odd_witness :
    0 < 2 ∧ ([0, 1, 2, 3, 4, 5] : List ℕ).length = 2 * (2 * 1 + 1) ∧
    ((render [0, 1, 2, 3, 4, 5] 2 (2 * 1 + 1)).length = 1 + 1 ∧
      (∀ i, i < 1 → ∀ c, c < 2 →
        ((render [0, 1, 2, 3, 4, 5] 2 (2 * 1 + 1)).getD i []).getD c ⟨0, none, ' '⟩ =
          ⟨([0, 1, 2, 3, 4, 5] : List ℕ).getD ((2 * i + 1) * 2 + c) 0,
            some (([0, 1, 2, 3, 4, 5] : List ℕ).getD (2 * i * 2 + c) 0), lowerHalfChar⟩) ∧
      (∀ c, c < 2 →
        ((render [0, 1, 2, 3, 4, 5] 2 (2 * 1 + 1)).getD 1 []).getD c ⟨0, none, ' '⟩ =
          ⟨([0, 1, 2, 3, 4, 5] : List ℕ).getD (2 * 1 * 2 + c) 0, none, upperHalfChar⟩)) :=
  ⟨by omega, by decide, render_odd 2 (by omega) 1 [0, 1, 2, 3, 4, 5] (by decide)⟩

/-- C8 counterexample: the lone trailing line's cell has no background and
foreground = the upper row's index, but its glyph is the upper-half block
`'\u{2580}'`, not the full-block glyph `'\u{2588}'` the claim names. -/
theorem render_last_line_not_full_block :
    render [5] 1 1 = [[⟨5, none, upperHalfChar⟩]] ∧ upperHalfChar ≠ fullBlockChar :=
  ⟨rfl, by decide⟩
